import Mathlib

/-!
Verification of the maze/movement/pathfinding substrate of the MiniPac
repository.  The Python source (`minopac/maze.py`, `minopac/vector.py`,
`minopac/entities/player.py`, `minopac/constants.py`) is shallowly embedded:
Python ints become `ℤ`, Python floats become `ℚ` (every constant appearing in
the verified scenarios — `0.5`, `0.1`, `0.2`, `0.999` — is computed exactly by
IEEE doubles on the traces considered, so the rational model agrees with the
float execution there), Python sets become `Finset`, and the two `while`
loops (`find_open_tile`, `find_shortest_path`) become fuel-indexed recursions
whose fuel is proved sufficient.
-/

/-- `TILE_SIZE` from `constants.py`. -/
def TILE_SIZE : ℤ := 36

/-- `PLAYER_MOVE_TIME` from `constants.py` (0.2 seconds). -/
def PLAYER_MOVE_TIME : ℚ := 1 / 5

/-- A grid coordinate `(x, y)`; Python tuples of ints. -/
abbrev Coord := ℤ × ℤ

/-- A continuous pixel position; Python tuples of floats (`vector.Vec2`). -/
abbrev Vec2 := ℚ × ℚ

/-- `vec_lerp` from `vector.py`: componentwise `start + (end - start) * t`. -/
def vec_lerp (s e : Vec2) (t : ℚ) : Vec2 :=
  (s.1 + (e.1 - s.1) * t, s.2 + (e.2 - s.2) * t)

/-- The `Maze` state from `maze.py`. -/
structure Maze where
  layout : List (List Char)
  pellets : Finset Coord
  power_pellets : Finset Coord
  wall_tiles : Finset Coord
  width : ℤ
  height : ℤ
  ghost_spawns : List Coord
  player_spawn : Coord

/-- `Maze.pixel_width`: `self.width * TILE_SIZE`. -/
def Maze.pixel_width (m : Maze) : ℤ := m.width * TILE_SIZE

/-- `Maze.pixel_height`: `self.height * TILE_SIZE`. -/
def Maze.pixel_height (m : Maze) : ℤ := m.height * TILE_SIZE

/-- `Maze.is_wall`: true if the coordinate is outside the bounds
(`x < 0 or y < 0 or x >= width or y >= height`) or in the wall set. -/
def Maze.is_wall (m : Maze) (grid : Coord) : Bool :=
  if grid.1 < 0 ∨ grid.2 < 0 ∨ m.width ≤ grid.1 ∨ m.height ≤ grid.2 then true
  else decide (grid ∈ m.wall_tiles)

/-- `Maze.get_cell_in_direction`: wraps `x + dx` horizontally via
`(x + width) % width`, returns `none` when `y + dy` is outside `[0, height)`. -/
def Maze.get_cell_in_direction (m : Maze) (position direction : Coord) : Option Coord :=
  let x := position.1 + direction.1
  let y := position.2 + direction.2
  let x2 := (x + m.width) % m.width
  if y < 0 ∨ m.height ≤ y then none
  else some (x2, y)

/-- `Maze.grid_to_pixel`: `((x + 0.5) * TILE_SIZE, (y + 0.5) * TILE_SIZE)`. -/
def Maze.grid_to_pixel (m : Maze) (grid : Coord) : Vec2 :=
  (((grid.1 : ℚ) + 1 / 2) * (TILE_SIZE : ℚ), ((grid.2 : ℚ) + 1 / 2) * (TILE_SIZE : ℚ))

/-- `Maze.interpolate_pixel_position`: converts both grid endpoints to pixel
space, shifts one endpoint by a maze width when the motion crosses the
horizontal seam, linearly interpolates, then renormalizes the x result into
`[0, pixel_width)`.  (The Python parameter `end` is called `stop` here because
`end` is a Lean keyword.) -/
def Maze.interpolate_pixel_position (m : Maze) (start stop : Coord) (progress : ℚ) : Vec2 :=
  let start_pixel := m.grid_to_pixel start
  let end_pixel := m.grid_to_pixel stop
  let width : ℚ := (m.pixel_width : ℚ)
  let shifted : Vec2 × Vec2 :=
    if start.1 = m.width - 1 ∧ stop.1 = 0 then
      (start_pixel, (end_pixel.1 + width, end_pixel.2))
    else if start.1 = 0 ∧ stop.1 = m.width - 1 then
      ((start_pixel.1 + width, start_pixel.2), end_pixel)
    else (start_pixel, end_pixel)
  let pos := vec_lerp shifted.1 shifted.2 progress
  if pos.1 < 0 then (pos.1 + width, pos.2)
  else if width ≤ pos.1 then (pos.1 - width, pos.2)
  else pos

/-- `Maze.eat_pellet`: removes and reports a pellet (`'.'`) or a power pellet
(`'o'`) at `grid`, returning `none` and leaving the maze unchanged otherwise.
State passing replaces Python's in-place set mutation. -/
def Maze.eat_pellet (m : Maze) (grid : Coord) : Option Char × Maze :=
  if grid ∈ m.pellets then (some '.', { m with pellets := m.pellets.erase grid })
  else if grid ∈ m.power_pellets then
    (some 'o', { m with power_pellets := m.power_pellets.erase grid })
  else (none, m)

/-- `Maze.remaining_pellets`: `len(pellets) + len(power_pellets)`. -/
def Maze.remaining_pellets (m : Maze) : ℕ := m.pellets.card + m.power_pellets.card

/-- `Maze.neighbors`: the walkable cells one step away in the fixed order
`(+x, -x, +y, -y)`, with horizontal wraparound applied before the wall check. -/
def Maze.neighbors (m : Maze) (grid : Coord) : List Coord :=
  ([(1, 0), (-1, 0), (0, 1), (0, -1)] : List Coord).filterMap fun o =>
    let nx := (grid.1 + o.1 + m.width) % m.width
    let ny := grid.2 + o.2
    if m.is_wall (nx, ny) then none else some (nx, ny)

/-- The raw (unwrapped) 4-neighborhood used by `find_open_tile`. -/
def openNeighbors (c : Coord) : List Coord :=
  [(c.1 + 1, c.2), (c.1 - 1, c.2), (c.1, c.2 + 1), (c.1, c.2 - 1)]

/-- The inner `for` loop of `Maze.find_open_tile`: scans neighbor candidates,
skipping out-of-bounds and already-visited cells, returning the first walkable
cell (`Sum.inl`) or the updated visited set and queue (`Sum.inr`). -/
def openStep (m : Maze) :
    List Coord → Finset Coord → List Coord → Coord ⊕ (Finset Coord × List Coord)
  | [], visited, queue => Sum.inr (visited, queue)
  | n :: rest, visited, queue =>
    if n.1 < 0 ∨ n.2 < 0 ∨ m.width ≤ n.1 ∨ m.height ≤ n.2 then
      openStep m rest visited queue
    else if n ∈ visited then openStep m rest visited queue
    else if m.is_wall n then openStep m rest (insert n visited) (queue ++ [n])
    else Sum.inl n

/-- The `while queue:` loop of `Maze.find_open_tile`, indexed by fuel.
`none` means the fuel ran out (proved impossible for the fuel used),
`some none` models the `ValueError`, `some (some c)` a found open tile. -/
def findOpenAux (m : Maze) : ℕ → Finset Coord → List Coord → Option (Option Coord)
  | _, _, [] => some none
  | 0, _, _ :: _ => none
  | fuel + 1, visited, c :: rest =>
    match openStep m (openNeighbors c) visited rest with
    | Sum.inl found => some (some found)
    | Sum.inr (v2, q2) => findOpenAux m fuel v2 q2

/-- Fuel that provably dominates the number of loop iterations of both
breadth-first searches: one per enqueued cell, and at most `width * height`
cells are ever enqueued beyond the initial one. -/
def gridFuel (m : Maze) : ℕ := m.width.toNat * m.height.toNat + 1

/-- `Maze.find_open_tile`: the preferred tile if walkable, else the first
walkable tile found by the raw-4-neighborhood BFS; `none` models the
`ValueError` raised when no open tile is reachable. -/
def Maze.find_open_tile (m : Maze) (preferred : Coord) : Option Coord :=
  if m.is_wall preferred = false then some preferred
  else (findOpenAux m (gridFuel m) {preferred} [preferred]).getD none

/-- The inner `for neighbor in self.neighbors(current)` loop of
`Maze.find_shortest_path`: returns the completed path (`Sum.inl`) as soon as a
neighbor equals the goal, otherwise enqueues the fresh neighbors with their
extended paths (`Sum.inr`). -/
def bfsStep (e : Coord) (path : List Coord) :
    List Coord → Finset Coord → List (Coord × List Coord) →
    (List Coord) ⊕ (Finset Coord × List (Coord × List Coord))
  | [], visited, queue => Sum.inr (visited, queue)
  | n :: rest, visited, queue =>
    if n = e then Sum.inl (path ++ [n])
    else if n ∈ visited then bfsStep e path rest visited queue
    else bfsStep e path rest (insert n visited) (queue ++ [(n, path ++ [n])])

/-- The `while queue:` loop of `Maze.find_shortest_path`, indexed by fuel.
`none` means the fuel ran out (proved impossible for the fuel used),
`some none` models `return None`, `some (some p)` a found path. -/
def bfsAux (m : Maze) (e : Coord) :
    ℕ → Finset Coord → List (Coord × List Coord) → Option (Option (List Coord))
  | _, _, [] => some none
  | 0, _, _ :: _ => none
  | fuel + 1, visited, (c, path) :: rest =>
    match bfsStep e path (m.neighbors c) visited rest with
    | Sum.inl found => some (some found)
    | Sum.inr (v2, q2) => bfsAux m e fuel v2 q2

/-- `Maze.find_shortest_path`: `None` when either endpoint is a wall,
`[start]` when `start == end`, otherwise breadth-first search over
`neighbors()`. -/
def Maze.find_shortest_path (m : Maze) (s e : Coord) : Option (List Coord) :=
  if m.is_wall s = true ∨ m.is_wall e = true then none
  else if s = e then some [s]
  else (bfsAux m e (gridFuel m) {s} [(s, [s])]).getD none

/-- Accumulator for parsing a textual layout (`Maze.from_strings`). -/
structure MazeAcc where
  pellets : Finset Coord
  power_pellets : Finset Coord
  wall_tiles : Finset Coord
  ghost_spawns : List Coord
  player_spawn : Coord

/-- Classification of one layout character at `(x, y)`:
`'#'` wall, `'.'` pellet, case-insensitive `'o'` power pellet, `'G'` ghost
spawn (appended), `'P'` player spawn (overwritten, last wins), anything else
walkable floor. -/
def applyChar (x y : ℤ) (ch : Char) (acc : MazeAcc) : MazeAcc :=
  if ch = '#' then { acc with wall_tiles := insert (x, y) acc.wall_tiles }
  else if ch = '.' then { acc with pellets := insert (x, y) acc.pellets }
  else if ch = 'o' ∨ ch = 'O' then
    { acc with power_pellets := insert (x, y) acc.power_pellets }
  else if ch = 'G' then { acc with ghost_spawns := acc.ghost_spawns ++ [(x, y)] }
  else if ch = 'P' then { acc with player_spawn := (x, y) }
  else acc

/-- The inner `for x, char in enumerate(row)` loop of `Maze.from_strings`. -/
def parseRow (y : ℤ) : ℤ → List Char → MazeAcc → MazeAcc
  | _, [], acc => acc
  | x, ch :: rest, acc => parseRow y (x + 1) rest (applyChar x y ch acc)

/-- The outer `for y, row in enumerate(rows)` loop of `Maze.from_strings`. -/
def parseRows : ℤ → List (List Char) → MazeAcc → MazeAcc
  | _, [], acc => acc
  | y, row :: rest, acc => parseRows (y + 1) rest (parseRow y 0 row acc)

/-- `Maze.from_strings`: parses a list of rows.  `none` models the
`IndexError` raised by `rows[0]` on an empty layout; `width` is the length of
the first row, `height` the number of rows. -/
def from_strings (layout : List (List Char)) : Option Maze :=
  match layout with
  | [] => none
  | r0 :: _ =>
    let acc := parseRows 0 layout ⟨∅, ∅, ∅, [], (0, 0)⟩
    some ⟨layout, acc.pellets, acc.power_pellets, acc.wall_tiles,
      (r0.length : ℤ), (layout.length : ℤ), acc.ghost_spawns, acc.player_spawn⟩

/-- The movement-controller state from `entities/player.py`. -/
structure Player where
  maze : Maze
  spawn : Coord
  grid_pos : Coord
  target_grid_pos : Option Coord
  pixel_pos : Vec2
  facing : Coord
  radius : ℤ
  lives : ℤ
  movement_speed : ℚ
  movement_elapsed : ℚ
  current_direction : Option Coord
  next_direction : Option Coord

/-- `Player.set_next_direction`: queues a direction. -/
def Player.set_next_direction (p : Player) (direction : Coord) : Player :=
  { p with next_direction := some direction }

/-- `Player.can_move`: the target cell exists and is not a wall. -/
def Player.can_move (p : Player) (direction : Coord) : Bool :=
  match p.maze.get_cell_in_direction p.grid_pos direction with
  | none => false
  | some target => !(p.maze.is_wall target)

/-- `Player._update_interpolation`: advances `movement_elapsed` (clamped to
`movement_speed`), recomputes `pixel_pos` by wrap-aware interpolation, and on
arrival snaps `grid_pos` to the target, clears it and zeroes the timer. -/
def Player.update_interpolation (p : Player) (dt : ℚ) : Player :=
  match p.target_grid_pos with
  | none => p
  | some target =>
    let elapsed := min (p.movement_elapsed + dt) p.movement_speed
    let progress := elapsed / p.movement_speed
    let pix := p.maze.interpolate_pixel_position p.grid_pos target progress
    if p.movement_speed ≤ elapsed then
      { p with movement_elapsed := 0, pixel_pos := pix,
               grid_pos := target, target_grid_pos := none }
    else
      { p with movement_elapsed := elapsed, pixel_pos := pix }

/-- `Player._try_start_move`: promote the queued direction if legal, then
commit the current direction if legal. -/
def Player.try_start_move (p : Player) : Player :=
  let p1 :=
    match p.next_direction with
    | some nd =>
      if p.can_move nd then { p with current_direction := some nd, next_direction := none }
      else p
    | none => p
  match p1.current_direction with
  | some cd =>
    if p1.can_move cd then
      { p1 with facing := cd, movement_elapsed := 0,
                target_grid_pos := p1.maze.get_cell_in_direction p1.grid_pos cd }
    else p1
  | none => p1

/-- `Player.update`: try to start a move when idle, then interpolate. -/
def Player.update (p : Player) (dt : ℚ) : Player :=
  let p1 := if p.target_grid_pos.isNone then p.try_start_move else p
  p1.update_interpolation dt

/-- An external call into the movement controller: a simulation tick
(`update dt`) or an input event (`set_next_direction d`). -/
inductive PEvent where
  | upd (dt : ℚ)
  | setDir (d : Coord)

/-- Applies one controller call. -/
def applyEvent (p : Player) : PEvent → Player
  | PEvent.upd dt => p.update dt
  | PEvent.setDir d => p.set_next_direction d

/-- Valid paths of the `neighbors()` graph: nonempty coordinate sequences from
`s` in which every element after the first is a `neighbors` successor of its
predecessor.  `ValidPath m s e p` says `p` runs from `s` to `e`. -/
inductive ValidPath (m : Maze) (s : Coord) : Coord → List Coord → Prop where
  | single : ValidPath m s s [s]
  | extend (c n : Coord) (p : List Coord) :
      ValidPath m s c p → n ∈ m.neighbors c → ValidPath m s n (p ++ [n])

/-- `e` is reachable from `s` in the `neighbors()` graph. -/
def Reachable (m : Maze) (s e : Coord) : Prop := ∃ p, ValidPath m s e p

/-- The in-bounds cells of the maze, as a finite set. -/
def gridCells (m : Maze) : Finset Coord :=
  (Finset.range m.width.toNat ×ˢ Finset.range m.height.toNat).image
    fun p => ((p.1 : ℤ), (p.2 : ℤ))

/-! ### Basic characterizations -/

theorem is_wall_false_iff (m : Maze) (c : Coord) :
    m.is_wall c = false ↔
      0 ≤ c.1 ∧ c.1 < m.width ∧ 0 ≤ c.2 ∧ c.2 < m.height ∧ c ∉ m.wall_tiles := by
  rcases c with ⟨x, y⟩
  simp only [Maze.is_wall]
  split
  · rename_i h
    simp only [Bool.true_eq_false, false_iff]
    intro hc
    rcases hc with ⟨h1, h2, h3, h4, _⟩
    rcases h with h | h | h | h <;> omega
  · rename_i h
    push_neg at h
    simp only [decide_eq_false_iff_not]
    constructor
    · intro hw
      exact ⟨by omega, by omega, by omega, by omega, hw⟩
    · intro hc
      exact hc.2.2.2.2

theorem mem_gridCells (m : Maze) (c : Coord) :
    c ∈ gridCells m ↔ 0 ≤ c.1 ∧ c.1 < m.width ∧ 0 ≤ c.2 ∧ c.2 < m.height := by
  rcases c with ⟨x, y⟩
  simp only [gridCells, Finset.mem_image, Finset.mem_product, Finset.mem_range, Prod.mk.injEq,
    Prod.exists]
  constructor
  · rintro ⟨a, b, ⟨ha, hb⟩, rfl, rfl⟩
    refine ⟨by positivity, by omega, by positivity, by omega⟩
  · rintro ⟨h1, h2, h3, h4⟩
    refine ⟨x.toNat, y.toNat, ⟨?_, ?_⟩, by omega, by omega⟩
    · omega
    · omega

/-! ### Concrete mazes used to instantiate the theorems -/

/-- A 2x1 maze with no walls. -/
def mzNoWalls : Maze := ⟨[['.', '.']], ∅, ∅, ∅, 2, 1, [], (0, 0)⟩

/-- A 2x1 maze whose left tile is a wall. -/
def mzOneWall : Maze := ⟨[['#', '.']], ∅, ∅, {(0, 0)}, 2, 1, [], (1, 0)⟩

/-- A 1x1 maze consisting of a single wall tile. -/
def mzAllWalls : Maze := ⟨[['#']], ∅, ∅, {(0, 0)}, 1, 1, [], (0, 0)⟩

/-- A 3x1 corridor maze with no walls. -/
def mzCorridor : Maze := ⟨[['.', '.', '.']], ∅, ∅, ∅, 3, 1, [], (0, 0)⟩

/-! ### C3: get_cell_in_direction -/

/-- C3: `get_cell_in_direction` wraps horizontally and bounds vertically:
stepping right from `(width-1, y)` lands on `(0, y)` and stepping left from
`(0, y)` lands on `(width-1, y)` for every in-range `y`; stepping up from row
`0` or down from row `height-1` yields `none` for every `x`; and in general,
whenever the destination row is in range, the result is
`((x+dx) mod width, y+dy)` regardless of wall status. -/
theorem get_cell_in_direction_spec (m : Maze) (hw : 0 < m.width) :
    (∀ y : ℤ, 0 ≤ y → y < m.height →
      m.get_cell_in_direction (m.width - 1, y) (1, 0) = some (0, y)) ∧
    (∀ y : ℤ, 0 ≤ y → y < m.height →
      m.get_cell_in_direction (0, y) (-1, 0) = some (m.width - 1, y)) ∧
    (∀ x : ℤ, m.get_cell_in_direction (x, 0) (0, -1) = none) ∧
    (∀ x : ℤ, m.get_cell_in_direction (x, m.height - 1) (0, 1) = none) ∧
    (∀ pos dir : Coord, 0 ≤ pos.2 + dir.2 → pos.2 + dir.2 < m.height →
      m.get_cell_in_direction pos dir =
        some ((pos.1 + dir.1) % m.width, pos.2 + dir.2)) := by
  refine ⟨?_, ?_, ?_, ?_, ?_⟩
  · intro y h1 h2
    simp only [Maze.get_cell_in_direction]
    rw [if_neg (by omega)]
    have hx : (m.width - 1 + 1 + m.width) % m.width = 0 := by
      have h2 : m.width - 1 + 1 + m.width = 2 * m.width := by ring
      rw [h2, Int.mul_emod_left]
    rw [hx, add_zero]
  · intro y h1 h2
    simp only [Maze.get_cell_in_direction]
    rw [if_neg (by omega)]
    have hx : (0 + -1 + m.width) % m.width = m.width - 1 := by
      have h2 : (0 : ℤ) + -1 + m.width = m.width - 1 := by ring
      rw [h2, Int.emod_eq_of_lt (by omega) (by omega)]
    rw [hx, add_zero]
  · intro x
    simp only [Maze.get_cell_in_direction]
    rw [if_pos (by omega)]
  · intro x
    simp only [Maze.get_cell_in_direction]
    rw [if_pos (by omega)]
  · intro pos dir h1 h2
    simp only [Maze.get_cell_in_direction]
    rw [if_neg (by omega)]
    have hx : (pos.1 + dir.1 + m.width) % m.width = (pos.1 + dir.1) % m.width := by
      have h2 : pos.1 + dir.1 + m.width = pos.1 + dir.1 + m.width * 1 := by ring
      rw [h2, Int.add_mul_emod_self_left]
    rw [hx]

/-- Witness for C3 on the concrete 2x1 maze. -/
theorem get_cell_in_direction_spec_w :
    mzNoWalls.get_cell_in_direction (1, 0) (1, 0) = some (0, 0) ∧
    mzNoWalls.get_cell_in_direction (0, 0) (-1, 0) = some (1, 0) ∧
    mzNoWalls.get_cell_in_direction (5, 0) (0, -1) = none ∧
    mzNoWalls.get_cell_in_direction (5, 0) (0, 1) = none ∧
    mzNoWalls.get_cell_in_direction (1, 0) (1, 0) = some ((1 + 1) % 2, 0) := by
  have h := get_cell_in_direction_spec mzNoWalls (by decide)
  exact ⟨h.1 0 (by decide) (by decide), h.2.1 0 (by decide) (by decide),
    h.2.2.1 5, h.2.2.2.1 5, h.2.2.2.2 (1, 0) (1, 0) (by decide) (by decide)⟩

/-! ### C4: is_wall (corrected) -/

/-- C4 counterexample: the claim says that whenever `0 ≤ y < height`,
`is_wall` reflects exactly wall-set membership for ANY integer `x`; but the
code also bound-checks `x`, so `(-1, 0)` is reported as a wall even though it
is not in the (empty) wall set and its row is in range. -/
theorem is_wall_negx_cex :
    (0 : ℤ) ≤ 0 ∧ (0 : ℤ) < mzNoWalls.height ∧
    mzNoWalls.is_wall (-1, 0) = true ∧
    ((-1, 0) : Coord) ∉ mzNoWalls.wall_tiles := by
  refine ⟨le_refl 0, by decide, by decide, by decide⟩

/-- C4 (amended): for coordinates inside the grid on BOTH axes, `is_wall`
reflects exactly wall-set membership; a coordinate whose row is out of range
is a wall regardless of `x`, and likewise a coordinate whose column is out of
range is a wall regardless of `y`. -/
theorem is_wall_spec (m : Maze) (x y : ℤ) :
    (0 ≤ x → x < m.width → 0 ≤ y → y < m.height →
      (m.is_wall (x, y) = true ↔ (x, y) ∈ m.wall_tiles)) ∧
    ((y < 0 ∨ m.height ≤ y) → m.is_wall (x, y) = true) ∧
    ((x < 0 ∨ m.width ≤ x) → m.is_wall (x, y) = true) := by
  refine ⟨?_, ?_, ?_⟩
  · intro h1 h2 h3 h4
    simp only [Maze.is_wall]
    rw [if_neg (by omega)]
    simp
  · intro h
    simp only [Maze.is_wall]
    rw [if_pos (by omega)]
  · intro h
    simp only [Maze.is_wall]
    rw [if_pos (by omega)]

/-- Witness for the amended C4 on the concrete 2x1 one-wall maze. -/
theorem is_wall_spec_w :
    (mzOneWall.is_wall (0, 0) = true ↔ ((0, 0) : Coord) ∈ mzOneWall.wall_tiles) ∧
    mzOneWall.is_wall (0, -1) = true ∧
    mzOneWall.is_wall (-1, 0) = true := by
  refine ⟨(is_wall_spec mzOneWall 0 0).1 (by decide) (by decide) (by decide) (by decide),
    (is_wall_spec mzOneWall 0 (-1)).2.1 (Or.inl (by decide)),
    (is_wall_spec mzOneWall (-1) 0).2.2 (Or.inl (by decide))⟩


/-! ### C2: interpolation continuity across the seam -/

/-- Closed form of the seam-crossing interpolation for the rightward wrap
`(width-1, y) -> (0, y)` at any progress in `[1/2, 1]`: the x result is
`36*t - 18`, already renormalized into `[0, pixel_width)`. -/
theorem interpolate_seam_eval (m : Maze) (y : ℤ) (hw : 0 < m.width) (t : ℚ)
    (ht1 : 1 / 2 ≤ t) (ht2 : t ≤ 1) :
    m.interpolate_pixel_position (m.width - 1, y) (0, y) t =
      (36 * t - 18, (y : ℚ) * 36 + 18) := by
  have hwq : (1 : ℚ) ≤ (m.width : ℚ) := by exact_mod_cast hw
  simp only [Maze.interpolate_pixel_position, Maze.grid_to_pixel, Maze.pixel_width,
    vec_lerp, TILE_SIZE]
  push_cast
  simp only [and_self, if_true]
  split_ifs with h1 h2
  · exfalso
    nlinarith
  · simp only [Prod.mk.injEq]
    constructor
    · ring
    · ring
  · exfalso
    apply h2
    nlinarith

/-- C2: interpolation is continuous across the horizontal wrap seam — for a
maze of width `W` tiles and any row `y`, the results of
`interpolate_pixel_position((W-1,y),(0,y),0.999)` and
`interpolate_pixel_position((W-1,y),(0,y),1.0)` differ in x by exactly
`TILE_SIZE * 0.001` (a tiny fraction of one tile crossing, not a maze-width
jump), and the result at progress `1.0` is the pixel center of `(0,y)`, which
lies inside `[0, pixel_width)`. -/
theorem interpolate_seam (m : Maze) (y : ℤ) (hw : 0 < m.width) :
    m.interpolate_pixel_position (m.width - 1, y) (0, y) 1 = m.grid_to_pixel (0, y) ∧
    (m.interpolate_pixel_position (m.width - 1, y) (0, y) 1).1 -
        (m.interpolate_pixel_position (m.width - 1, y) (0, y) (999 / 1000)).1 =
      (TILE_SIZE : ℚ) * (1 / 1000) ∧
    0 ≤ (m.grid_to_pixel (0, y)).1 ∧
    (m.grid_to_pixel (0, y)).1 < (m.pixel_width : ℚ) := by
  have hwq : (1 : ℚ) ≤ (m.width : ℚ) := by exact_mod_cast hw
  have h1 := interpolate_seam_eval m y hw 1 (by norm_num) (le_refl 1)
  have h2 := interpolate_seam_eval m y hw (999 / 1000) (by norm_num) (by norm_num)
  refine ⟨?_, ?_, ?_, ?_⟩
  · rw [h1]
    simp only [Maze.grid_to_pixel, TILE_SIZE, Prod.mk.injEq]
    push_cast
    constructor
    · ring
    · ring
  · rw [h1, h2]
    simp only [TILE_SIZE]
    push_cast
    ring
  · simp only [Maze.grid_to_pixel, TILE_SIZE]
    push_cast
    norm_num
  · simp only [Maze.grid_to_pixel, Maze.pixel_width, TILE_SIZE]
    push_cast
    nlinarith

/-- Witness for C2 on the concrete 3x1 corridor maze. -/
theorem interpolate_seam_w :
    mzCorridor.interpolate_pixel_position (mzCorridor.width - 1, 0) (0, 0) 1 =
      mzCorridor.grid_to_pixel (0, 0) ∧
    (mzCorridor.interpolate_pixel_position (mzCorridor.width - 1, 0) (0, 0) 1).1 -
        (mzCorridor.interpolate_pixel_position (mzCorridor.width - 1, 0) (0, 0)
          (999 / 1000)).1 =
      (TILE_SIZE : ℚ) * (1 / 1000) ∧
    0 ≤ (mzCorridor.grid_to_pixel (0, 0)).1 ∧
    (mzCorridor.grid_to_pixel (0, 0)).1 < (mzCorridor.pixel_width : ℚ) :=
  interpolate_seam mzCorridor 0 (by decide)

/-! ### C8: eat_pellet idempotence -/

/-- `applyChar` either leaves both pellet sets unchanged, or inserts `(x, y)`
into exactly one of them. -/
theorem applyChar_pellet_cases (x y : ℤ) (ch : Char) (acc : MazeAcc) :
    ((applyChar x y ch acc).pellets = acc.pellets ∧
      (applyChar x y ch acc).power_pellets = acc.power_pellets) ∨
    ((applyChar x y ch acc).pellets = insert (x, y) acc.pellets ∧
      (applyChar x y ch acc).power_pellets = acc.power_pellets) ∨
    ((applyChar x y ch acc).pellets = acc.pellets ∧
      (applyChar x y ch acc).power_pellets = insert (x, y) acc.power_pellets) := by
  unfold applyChar
  split_ifs <;> simp

/-- Row-parsing invariant: cells recorded as pellets or power pellets lie
strictly before the scan position, and the two sets stay disjoint. -/
theorem parseRow_inv (y : ℤ) :
    ∀ (row : List Char) (x : ℤ) (acc : MazeAcc),
      (∀ c : Coord, c ∈ acc.pellets ∪ acc.power_pellets → c.2 < y ∨ (c.2 = y ∧ c.1 < x)) →
      Disjoint acc.pellets acc.power_pellets →
      (∀ c : Coord, c ∈ (parseRow y x row acc).pellets ∪ (parseRow y x row acc).power_pellets →
        c.2 < y ∨ c.2 = y) ∧
      Disjoint (parseRow y x row acc).pellets (parseRow y x row acc).power_pellets := by
  intro row
  induction row with
  | nil =>
    intro x acc hb hd
    refine ⟨?_, hd⟩
    intro c hc
    rcases hb c hc with h | h
    · exact Or.inl h
    · exact Or.inr h.1
  | cons ch rest ih =>
    intro x acc hb hd
    simp only [parseRow]
    apply ih (x + 1)
    · intro c hc
      rcases applyChar_pellet_cases x y ch acc with ⟨h1, h2⟩ | ⟨h1, h2⟩ | ⟨h1, h2⟩ <;>
        rw [h1, h2] at hc
      · rcases hb c hc with h | h
        · exact Or.inl h
        · exact Or.inr ⟨h.1, by omega⟩
      · simp only [Finset.mem_union, Finset.mem_insert] at hc
        rcases hc with (rfl | hc) | hc
        · exact Or.inr ⟨rfl, by omega⟩
        · rcases hb c (Finset.mem_union_left _ hc) with h | h
          · exact Or.inl h
          · exact Or.inr ⟨h.1, by omega⟩
        · rcases hb c (Finset.mem_union_right _ hc) with h | h
          · exact Or.inl h
          · exact Or.inr ⟨h.1, by omega⟩
      · simp only [Finset.mem_union, Finset.mem_insert] at hc
        rcases hc with hc | (rfl | hc)
        · rcases hb c (Finset.mem_union_left _ hc) with h | h
          · exact Or.inl h
          · exact Or.inr ⟨h.1, by omega⟩
        · exact Or.inr ⟨rfl, by omega⟩
        · rcases hb c (Finset.mem_union_right _ hc) with h | h
          · exact Or.inl h
          · exact Or.inr ⟨h.1, by omega⟩
    · rcases applyChar_pellet_cases x y ch acc with ⟨h1, h2⟩ | ⟨h1, h2⟩ | ⟨h1, h2⟩ <;>
        rw [h1, h2]
      · exact hd
      · rw [Finset.disjoint_left]
        intro c hc hc2
        simp only [Finset.mem_insert] at hc
        rcases hc with rfl | hc
        · rcases hb (x, y) (Finset.mem_union_right _ hc2) with h | h <;> simp at h
        · exact (Finset.disjoint_left.mp hd hc) hc2
      · rw [Finset.disjoint_left]
        intro c hc hc2
        simp only [Finset.mem_insert] at hc2
        rcases hc2 with rfl | hc2
        · rcases hb (x, y) (Finset.mem_union_left _ hc) with h | h <;> simp at h
        · exact (Finset.disjoint_left.mp hd hc) hc2

/-- Grid-parsing invariant: the pellet and power-pellet sets stay disjoint. -/
theorem parseRows_inv :
    ∀ (rows : List (List Char)) (y : ℤ) (acc : MazeAcc),
      (∀ c : Coord, c ∈ acc.pellets ∪ acc.power_pellets → c.2 < y) →
      Disjoint acc.pellets acc.power_pellets →
      Disjoint (parseRows y rows acc).pellets (parseRows y rows acc).power_pellets := by
  intro rows
  induction rows with
  | nil =>
    intro y acc hb hd
    exact hd
  | cons row rest ih =>
    intro y acc hb hd
    simp only [parseRows]
    have h1 := parseRow_inv y row 0 acc (fun c hc => Or.inl (hb c hc)) hd
    apply ih (y + 1)
    · intro c hc
      rcases h1.1 c hc with h | h
      · omega
      · omega
    · exact h1.2

/-- A maze built by `from_strings` never lists the same coordinate as both a
pellet and a power pellet. -/
theorem from_strings_disjoint (l : List (List Char)) (mz : Maze)
    (h : from_strings l = some mz) : Disjoint mz.pellets mz.power_pellets := by
  match l, h with
  | r0 :: rest, h =>
    simp only [from_strings, Option.some.injEq] at h
    subst h
    exact parseRows_inv (r0 :: rest) 0 ⟨∅, ∅, ∅, [], (0, 0)⟩ (by simp) (by simp)

/-- C8: `eat_pellet` is idempotent per coordinate.  On a coordinate holding a
pellet (resp. power pellet) it returns `'.'` (resp. `'o'`) and decreases
`remaining_pellets` by exactly 1; a second call at the same coordinate, or any
call at a coordinate with no pellet, returns `none` and leaves the maze
unchanged.  The hypothesis that the coordinate is not simultaneously in both
sets holds for every maze built by `from_strings`, as the final conjunct
records. -/
theorem eat_pellet_idempotent (m : Maze) (c : Coord)
    (hdisj : c ∉ m.pellets ∨ c ∉ m.power_pellets) :
    (c ∈ m.pellets →
      (m.eat_pellet c).1 = some '.' ∧
      (m.eat_pellet c).2.remaining_pellets + 1 = m.remaining_pellets) ∧
    (c ∈ m.power_pellets →
      (m.eat_pellet c).1 = some 'o' ∧
      (m.eat_pellet c).2.remaining_pellets + 1 = m.remaining_pellets) ∧
    (((m.eat_pellet c).2.eat_pellet c).1 = none ∧
      ((m.eat_pellet c).2.eat_pellet c).2 = (m.eat_pellet c).2) ∧
    (c ∉ m.pellets → c ∉ m.power_pellets →
      (m.eat_pellet c).1 = none ∧ (m.eat_pellet c).2 = m) ∧
    (∀ (l : List (List Char)) (mz : Maze), from_strings l = some mz →
      Disjoint mz.pellets mz.power_pellets) := by
  refine ⟨?_, ?_, ?_, ?_, fun l mz h => from_strings_disjoint l mz h⟩
  · intro hc
    have hcard := Finset.card_erase_of_mem hc
    have hpos : 0 < m.pellets.card := Finset.card_pos.mpr ⟨c, hc⟩
    simp only [Maze.eat_pellet, if_pos hc, Maze.remaining_pellets]
    constructor
    · trivial
    · simp only [hcard]
      omega
  · intro hc
    have hnp : c ∉ m.pellets := by
      rcases hdisj with h | h
      · exact h
      · exact absurd hc h
    have hcard := Finset.card_erase_of_mem hc
    have hpos : 0 < m.power_pellets.card := Finset.card_pos.mpr ⟨c, hc⟩
    simp only [Maze.eat_pellet, if_neg hnp, if_pos hc, Maze.remaining_pellets]
    constructor
    · trivial
    · simp only [hcard]
      omega
  · by_cases h1 : c ∈ m.pellets
    · have hnp : c ∉ m.power_pellets := by
        rcases hdisj with h | h
        · exact absurd h1 h
        · exact h
      simp only [Maze.eat_pellet, if_pos h1]
      simp only [Finset.not_mem_erase, if_neg, if_false, hnp]
      constructor
      · trivial
      · trivial
    · by_cases h2 : c ∈ m.power_pellets
      · simp only [Maze.eat_pellet, if_neg h1, if_pos h2]
        simp only [Finset.not_mem_erase, if_neg h1]
        constructor
        · trivial
        · trivial
      · simp only [Maze.eat_pellet, if_neg h1, if_neg h2]
        constructor
        · trivial
        · trivial
  · intro h1 h2
    simp only [Maze.eat_pellet, if_neg h1, if_neg h2]
    constructor
    · trivial
    · trivial

/-- A 2x1 maze holding one pellet and one power pellet. -/
def mzPellets : Maze := ⟨[['.', 'o']], {(0, 0)}, {(1, 0)}, ∅, 2, 1, [], (0, 0)⟩

/-- Witness for C8 on the concrete pellet maze. -/
theorem eat_pellet_idempotent_w :
    (mzPellets.eat_pellet (0, 0)).1 = some '.' ∧
    (mzPellets.eat_pellet (0, 0)).2.remaining_pellets + 1 = mzPellets.remaining_pellets ∧
    ((mzPellets.eat_pellet (0, 0)).2.eat_pellet (0, 0)).1 = none := by
  have h := eat_pellet_idempotent mzPellets (0, 0) (Or.inr (by decide))
  exact ⟨(h.1 (by decide)).1, (h.1 (by decide)).2, h.2.2.1.1⟩

/-! ### C7: from_strings on malformed layouts (corrected) -/

/-- C7 counterexample: ragged rows are NOT rejected — `from_strings` happily
builds a maze from two rows of different lengths, so the claimed
construction-time failure on ragged input does not happen. -/
theorem from_strings_ragged_cex :
    (from_strings [['#', '#'], ['#']]).isSome = true := by decide

/-- C7 (amended): construction fails exactly on an empty row sequence (the
indexing of the first row raises); any nonempty layout — ragged or not — is
accepted, with `width` taken from the first row and `height` from the number
of rows. -/
theorem from_strings_spec (l : List (List Char)) :
    (from_strings l = none ↔ l = []) ∧
    (∀ mz : Maze, from_strings l = some mz →
      mz.width = ((l.headD []).length : ℤ) ∧ mz.height = (l.length : ℤ)) := by
  cases l with
  | nil =>
    constructor
    · simp [from_strings]
    · intro mz h
      simp [from_strings] at h
  | cons r rest =>
    constructor
    · simp [from_strings]
    · intro mz h
      simp only [from_strings, Option.some.injEq] at h
      subst h
      exact ⟨rfl, rfl⟩

/-- Witness for the amended C7. -/
theorem from_strings_spec_w :
    from_strings ([] : List (List Char)) = none ∧
    ∃ mz : Maze, from_strings [['#']] = some mz ∧ mz.width = 1 ∧ mz.height = 1 := by
  constructor
  · exact (from_strings_spec ([] : List (List Char))).1.mpr rfl
  · obtain ⟨mz, hmz⟩ : ∃ mz, from_strings [['#']] = some mz := ⟨_, rfl⟩
    refine ⟨mz, hmz, ?_⟩
    have h := (from_strings_spec [['#']]).2 mz hmz
    simpa using h

/-! ### C10: find_open_tile with an isolated out-of-grid preferred tile -/

/-- C10: starting `find_open_tile` from `(-2, -2)` — a coordinate whose whole
raw 4-neighborhood is also outside the grid — raises the no-open-tiles error
(`none`) even though the maze has walkable tiles (for example `(0, 0)`),
because the bounds check discards every neighbor and the frontier empties. -/
theorem find_open_tile_isolated_cex :
    mzNoWalls.find_open_tile (-2, -2) = none ∧ mzNoWalls.is_wall (0, 0) = false := by
  decide

/-! ### C5: movement-controller two-tick scenario (corrected) -/

/-- A player idle at `(0, 0)` of the 2-wide no-wall maze, with `(1, 0)`
queued, speed `0.2` and zero elapsed time. -/
def playerSeam : Player :=
  ⟨mzNoWalls, (0, 0), (0, 0), none, (18, 18), (1, 0), 16, 3, 1 / 5, 0, none, some (1, 0)⟩

/-- C5 counterexample: in the 2-tile-wide maze, a player idle at `(0,0)` with
`next_direction=(1,0)`, `movement_speed=0.2`, `movement_elapsed=0` and
`target_grid_pos=None`, after `update(dt=0.1)`, sits at pixel x `0` — NOT at
the midpoint `36` of the centers of `(0,0)` and `(1,0)` — because the seam
heuristic of `interpolate_pixel_position` treats the move `x=0 -> x=1` in a
width-2 maze as a leftward wrap. -/
theorem player_halfway_cex :
    playerSeam.grid_pos = (0, 0) ∧ playerSeam.target_grid_pos = none ∧
    playerSeam.next_direction = some (1, 0) ∧ playerSeam.movement_speed = 1 / 5 ∧
    playerSeam.movement_elapsed = 0 ∧ playerSeam.maze.is_wall (0 + 1, 0) = false ∧
    (playerSeam.update (1 / 10)).pixel_pos = (0, 18) ∧
    ((playerSeam.maze.grid_to_pixel (0, 0)).1 +
        (playerSeam.maze.grid_to_pixel (1, 0)).1) / 2 = 36 ∧
    (playerSeam.update (1 / 10)).pixel_pos ≠
      (((playerSeam.maze.grid_to_pixel (0, 0)).1 +
          (playerSeam.maze.grid_to_pixel (1, 0)).1) / 2,
        (playerSeam.maze.grid_to_pixel (0, 0)).2) := by
  refine ⟨rfl, rfl, rfl, rfl, rfl, by decide, ?_, ?_, ?_⟩
  · simp only [Player.update, Player.try_start_move, Player.can_move,
      Player.update_interpolation, Maze.get_cell_in_direction, Maze.is_wall,
      Maze.interpolate_pixel_position, Maze.grid_to_pixel, Maze.pixel_width, vec_lerp,
      playerSeam, mzNoWalls, TILE_SIZE]
    norm_num
  · simp only [Maze.grid_to_pixel, playerSeam, mzNoWalls, TILE_SIZE]
    norm_num
  · simp only [Player.update, Player.try_start_move, Player.can_move,
      Player.update_interpolation, Maze.get_cell_in_direction, Maze.is_wall,
      Maze.interpolate_pixel_position, Maze.grid_to_pixel, Maze.pixel_width, vec_lerp,
      playerSeam, mzNoWalls, TILE_SIZE]
    norm_num

/-- Closed form of the interpolation for an ordinary (non-seam) one-tile
rightward move at half progress: the midpoint of the two tile centers. -/
theorem interpolate_step_eval (m : Maze) (x y : ℤ)
    (hb1 : 0 ≤ x + 1) (hb2 : x + 1 < m.width)
    (hseam : ¬(x = 0 ∧ x + 1 = m.width - 1)) :
    m.interpolate_pixel_position (x, y) (x + 1, y) (1 / 2) =
      ((x : ℚ) * 36 + 36, (y : ℚ) * 36 + 18) := by
  have hc1 : ¬((x, y).1 = m.width - 1 ∧ ((x + 1 : ℤ), y).1 = 0) := by
    simp only
    omega
  have hc2 : ¬((x, y).1 = 0 ∧ ((x + 1 : ℤ), y).1 = m.width - 1) := by
    simp only
    omega
  have hwq : ((x : ℚ) + 1) < (m.width : ℚ) := by exact_mod_cast hb2
  have hwq0 : (0 : ℚ) ≤ (x : ℚ) + 1 := by exact_mod_cast hb1
  simp only [Maze.interpolate_pixel_position, Maze.grid_to_pixel, Maze.pixel_width,
    vec_lerp, TILE_SIZE]
  rw [if_neg hc1, if_neg hc2]
  push_cast
  have h1 : ¬ (((x : ℚ) + 1 / 2) * 36 +
      (((x : ℚ) + 1 + 1 / 2) * 36 - ((x : ℚ) + 1 / 2) * 36) * (1 / 2) < 0) := by
    nlinarith
  rw [if_neg h1]
  have h2 : ¬ ((m.width : ℚ) * 36 ≤ ((x : ℚ) + 1 / 2) * 36 +
      (((x : ℚ) + 1 + 1 / 2) * 36 - ((x : ℚ) + 1 / 2) * 36) * (1 / 2)) := by
    nlinarith
  rw [if_neg h2]
  simp only [Prod.mk.injEq]
  constructor
  · ring
  · ring

/-- C5 (amended): the movement-controller two-tick scenario as claimed, under
the extra hypothesis that the move is not the width-2 seam ambiguity
(`x = 0` with `x+1 = width-1`): after `update(dt=0.1)` the target is
`(x+1, y)`, the grid position is unchanged and the pixel position is exactly
halfway between the two tile centers; after a second `update(dt=0.1)` the
target is cleared, the grid position is `(x+1, y)` and the timer is zero. -/
theorem player_two_tick (p : Player) (x y : ℤ)
    (hopen : p.maze.is_wall (x + 1, y) = false)
    (hseam : ¬(x = 0 ∧ x + 1 = p.maze.width - 1))
    (hgrid : p.grid_pos = (x, y))
    (htgt : p.target_grid_pos = none)
    (hnext : p.next_direction = some (1, 0))
    (hspeed : p.movement_speed = 1 / 5)
    (helap : p.movement_elapsed = 0) :
    (p.update (1 / 10)).target_grid_pos = some (x + 1, y) ∧
    (p.update (1 / 10)).grid_pos = (x, y) ∧
    (p.update (1 / 10)).pixel_pos =
      (((p.maze.grid_to_pixel (x, y)).1 + (p.maze.grid_to_pixel (x + 1, y)).1) / 2,
        (p.maze.grid_to_pixel (x, y)).2) ∧
    ((p.update (1 / 10)).update (1 / 10)).target_grid_pos = none ∧
    ((p.update (1 / 10)).update (1 / 10)).grid_pos = (x + 1, y) ∧
    ((p.update (1 / 10)).update (1 / 10)).movement_elapsed = 0 := by
  have hb := (is_wall_false_iff p.maze (x + 1, y)).mp hopen
  obtain ⟨hb1, hb2, hb3, hb4, hwall⟩ := hb
  have hcell : p.maze.get_cell_in_direction (x, y) (1, 0) = some (x + 1, y) := by
    simp only [Maze.get_cell_in_direction]
    rw [if_neg (by omega)]
    have hx : (x + 1 + p.maze.width) % p.maze.width = x + 1 := by
      have h2 : x + 1 + p.maze.width = x + 1 + p.maze.width * 1 := by ring
      rw [h2, Int.add_mul_emod_self_left, Int.emod_eq_of_lt (by omega) (by omega)]
    rw [hx]
    norm_num
  have hcan : p.can_move (1, 0) = true := by
    simp only [Player.can_move, hgrid, hcell, hopen]
    rfl
  have hpix := interpolate_step_eval p.maze x y (by omega) (by omega) hseam
  have hu1 : p.update (1 / 10) =
      { p with current_direction := some (1, 0), next_direction := none,
               facing := (1, 0), target_grid_pos := some (x + 1, y),
               movement_elapsed := 1 / 10,
               pixel_pos := ((x : ℚ) * 36 + 36, (y : ℚ) * 36 + 18) } := by
    simp only [Player.update, htgt, Option.isNone_none, if_true]
    simp only [Player.try_start_move, hnext, hcan, if_true]
    have hcan2 : Player.can_move
        { p with current_direction := some (1, 0), next_direction := none } (1, 0) = true := by
      simp only [Player.can_move, hgrid, hcell, hopen]
      rfl
    simp only [hcan2, if_true]
    simp only [Player.update_interpolation, hgrid, hcell, hspeed]
    norm_num
    exact hpix
  have hu2 : (p.update (1 / 10)).update (1 / 10) =
      { p with current_direction := some (1, 0), next_direction := none,
               facing := (1, 0), target_grid_pos := none,
               grid_pos := (x + 1, y), movement_elapsed := 0,
               pixel_pos := (p.maze.interpolate_pixel_position (x, y) (x + 1, y) 1) } := by
    rw [hu1]
    simp only [Player.update, Option.isNone_some, Bool.false_eq_true, if_false,
      Player.update_interpolation, hgrid, hspeed]
    norm_num
  refine ⟨?_, ?_, ?_, ?_, ?_, ?_⟩
  · rw [hu1]
  · rw [hu1]
    exact hgrid
  · rw [hu1]
    simp only [Maze.grid_to_pixel, TILE_SIZE]
    push_cast
    simp only [Prod.mk.injEq]
    constructor
    · ring
    · ring
  · rw [hu2]
  · rw [hu2]
  · rw [hu2]

/-- A player idle at `(0, 0)` of the 3-wide corridor maze, with `(1, 0)`
queued, speed `0.2` and zero elapsed time. -/
def playerStraight : Player :=
  ⟨mzCorridor, (0, 0), (0, 0), none, (18, 18), (1, 0), 16, 3, 1 / 5, 0, none, some (1, 0)⟩

/-- Witness for the amended C5 on the 3-wide corridor. -/
theorem player_two_tick_w :
    (playerStraight.update (1 / 10)).target_grid_pos = some (0 + 1, 0) ∧
    (playerStraight.update (1 / 10)).grid_pos = (0, 0) ∧
    (playerStraight.update (1 / 10)).pixel_pos =
      (((playerStraight.maze.grid_to_pixel (0, 0)).1 +
          (playerStraight.maze.grid_to_pixel (0 + 1, 0)).1) / 2,
        (playerStraight.maze.grid_to_pixel (0, 0)).2) ∧
    ((playerStraight.update (1 / 10)).update (1 / 10)).target_grid_pos = none ∧
    ((playerStraight.update (1 / 10)).update (1 / 10)).grid_pos = (0 + 1, 0) ∧
    ((playerStraight.update (1 / 10)).update (1 / 10)).movement_elapsed = 0 :=
  player_two_tick playerStraight 0 0 (by decide) (by decide) rfl rfl rfl rfl rfl

/-! ### C9: an in-flight move is never cancelled or redirected -/

/-- Single-call commitment dichotomy: with a committed target `T`, any one
controller call either leaves the target and grid position untouched, or — for
an `update` whose `dt` brings the timer to `movement_speed` — completes the
move to exactly `T`, clearing the target and zeroing the timer.  The movement
speed is never changed. -/
theorem playerCommitStep (p : Player) (T : Coord) (ev : PEvent)
    (htgt : p.target_grid_pos = some T) :
    ((applyEvent p ev).target_grid_pos = some T ∧
      (applyEvent p ev).grid_pos = p.grid_pos ∧
      (applyEvent p ev).movement_speed = p.movement_speed) ∨
    ((applyEvent p ev).target_grid_pos = none ∧ (applyEvent p ev).grid_pos = T ∧
      (applyEvent p ev).movement_elapsed = 0 ∧
      (applyEvent p ev).movement_speed = p.movement_speed ∧
      ∃ dt, ev = PEvent.upd dt ∧ p.movement_speed ≤ p.movement_elapsed + dt) := by
  cases ev with
  | setDir d =>
    left
    exact ⟨htgt, rfl, rfl⟩
  | upd dt =>
    simp only [applyEvent, Player.update, htgt, Option.isNone_some, Bool.false_eq_true,
      if_false, Player.update_interpolation]
    by_cases h : p.movement_speed ≤ p.movement_elapsed + dt
    · right
      rw [if_pos (le_min h (le_refl _))]
      exact ⟨rfl, rfl, rfl, rfl, dt, rfl, h⟩
    · left
      rw [if_neg (fun hc => h (le_min_iff.mp hc).1)]
      exact ⟨rfl, rfl, rfl⟩

/-- Multi-call commitment: with a committed target `T`, after any sequence of
controller calls either the target is still `T` with the grid position
unchanged, or there is a prefix along which the target stayed `T` and the grid
position unchanged, at whose end the player arrived exactly at `T`. -/
theorem playerCommitRun (p : Player) (T : Coord) (evs : List PEvent)
    (htgt : p.target_grid_pos = some T) :
    ((evs.foldl applyEvent p).target_grid_pos = some T ∧
      (evs.foldl applyEvent p).grid_pos = p.grid_pos) ∨
    (∃ n, n ≤ evs.length ∧
      (∀ k, k < n → ((evs.take k).foldl applyEvent p).target_grid_pos = some T ∧
        ((evs.take k).foldl applyEvent p).grid_pos = p.grid_pos) ∧
      ((evs.take n).foldl applyEvent p).target_grid_pos = none ∧
      ((evs.take n).foldl applyEvent p).grid_pos = T) := by
  induction evs generalizing p with
  | nil =>
    left
    exact ⟨htgt, rfl⟩
  | cons e t ih =>
    rcases playerCommitStep p T e htgt with ⟨h1, h2, _⟩ | ⟨h1, h2, _, _, _⟩
    · rcases ih (applyEvent p e) h1 with ⟨g1, g2⟩ | ⟨n, hn, hk, hend1, hend2⟩
      · left
        refine ⟨?_, ?_⟩
        · simpa using g1
        · simp only [List.foldl_cons]
          rw [g2, h2]
      · right
        refine ⟨n + 1, by simpa using Nat.succ_le_succ hn, ?_, ?_, ?_⟩
        · intro k hk2
          cases k with
          | zero => exact ⟨htgt, rfl⟩
          | succ k2 =>
            have hk3 := hk k2 (by omega)
            simp only [List.take_succ_cons, List.foldl_cons]
            exact ⟨hk3.1, by rw [hk3.2, h2]⟩
        · simp only [List.take_succ_cons, List.foldl_cons]
          exact hend1
        · simp only [List.take_succ_cons, List.foldl_cons]
          exact hend2
    · right
      refine ⟨1, by simp, ?_, ?_, ?_⟩
      · intro k hk2
        interval_cases k
        exact ⟨htgt, rfl⟩
      · simpa using h1
      · simpa using h2

/-- C9: an in-flight move is never cancelled or redirected.
(1) `set_next_direction` changes only the queued `next_direction`;
(2) with `target_grid_pos = T` committed, any single call either keeps the
target equal to `T` with the grid position unchanged, or — exactly when an
`update`'s `dt` makes `movement_elapsed` reach `movement_speed` — completes
the move: `grid_pos` becomes `T`, the target is cleared and the timer zeroed;
(3) hence over any sequence of `set_next_direction`/`update` calls the target
stays `T` (grid position unchanged) on every tick until the completing tick,
at which the player arrives exactly at `T`. -/
theorem player_no_cancel :
    (∀ (p : Player) (d : Coord),
      p.set_next_direction d = { p with next_direction := some d }) ∧
    (∀ (p : Player) (T : Coord) (ev : PEvent), p.target_grid_pos = some T →
      0 < p.movement_speed →
      ((applyEvent p ev).target_grid_pos = some T ∧
        (applyEvent p ev).grid_pos = p.grid_pos) ∨
      ((applyEvent p ev).target_grid_pos = none ∧ (applyEvent p ev).grid_pos = T ∧
        (applyEvent p ev).movement_elapsed = 0 ∧
        ∃ dt, ev = PEvent.upd dt ∧ p.movement_speed ≤ p.movement_elapsed + dt)) ∧
    (∀ (evs : List PEvent) (p : Player) (T : Coord), p.target_grid_pos = some T →
      0 < p.movement_speed →
      ((evs.foldl applyEvent p).target_grid_pos = some T ∧
        (evs.foldl applyEvent p).grid_pos = p.grid_pos) ∨
      (∃ n, n ≤ evs.length ∧
        (∀ k, k < n → ((evs.take k).foldl applyEvent p).target_grid_pos = some T ∧
          ((evs.take k).foldl applyEvent p).grid_pos = p.grid_pos) ∧
        ((evs.take n).foldl applyEvent p).target_grid_pos = none ∧
        ((evs.take n).foldl applyEvent p).grid_pos = T)) := by
  refine ⟨fun p d => rfl, ?_, ?_⟩
  · intro p T ev htgt _
    rcases playerCommitStep p T ev htgt with ⟨h1, h2, _⟩ | ⟨h1, h2, h3, _, h5⟩
    · exact Or.inl ⟨h1, h2⟩
    · exact Or.inr ⟨h1, h2, h3, h5⟩
  · intro evs p T htgt _
    exact playerCommitRun p T evs htgt

/-- A player mid-move toward `(1, 0)` in the corridor maze. -/
def playerMoving : Player :=
  ⟨mzCorridor, (0, 0), (0, 0), some (1, 0), (36, 18), (1, 0), 16, 3, 1 / 5, 1 / 10,
    some (1, 0), none⟩

/-- Witness for C9: concrete instantiations of all three parts. -/
theorem player_no_cancel_w :
    (playerMoving.set_next_direction (0, 1) =
      { playerMoving with next_direction := some ((0 : ℤ), (1 : ℤ)) }) ∧
    (((applyEvent playerMoving (PEvent.upd (1 / 100))).target_grid_pos = some (1, 0) ∧
        (applyEvent playerMoving (PEvent.upd (1 / 100))).grid_pos = playerMoving.grid_pos) ∨
      ((applyEvent playerMoving (PEvent.upd (1 / 100))).target_grid_pos = none ∧
        (applyEvent playerMoving (PEvent.upd (1 / 100))).grid_pos = (1, 0) ∧
        (applyEvent playerMoving (PEvent.upd (1 / 100))).movement_elapsed = 0 ∧
        ∃ dt, PEvent.upd (1 / 100) = PEvent.upd dt ∧
          playerMoving.movement_speed ≤ playerMoving.movement_elapsed + dt)) ∧
    ((([PEvent.upd (1 / 10)].foldl applyEvent playerMoving).target_grid_pos = some (1, 0) ∧
        ([PEvent.upd (1 / 10)].foldl applyEvent playerMoving).grid_pos =
          playerMoving.grid_pos) ∨
      (∃ n, n ≤ [PEvent.upd (1 / 10)].length ∧
        (∀ k, k < n →
          (([PEvent.upd (1 / 10)].take k).foldl applyEvent playerMoving).target_grid_pos =
            some (1, 0) ∧
          (([PEvent.upd (1 / 10)].take k).foldl applyEvent playerMoving).grid_pos =
            playerMoving.grid_pos) ∧
        (([PEvent.upd (1 / 10)].take n).foldl applyEvent playerMoving).target_grid_pos =
          none ∧
        (([PEvent.upd (1 / 10)].take n).foldl applyEvent playerMoving).grid_pos = (1, 0))) :=
  ⟨player_no_cancel.1 playerMoving (0, 1),
    player_no_cancel.2.1 playerMoving (1, 0) (PEvent.upd (1 / 100)) rfl (by norm_num [playerMoving]),
    player_no_cancel.2.2 [PEvent.upd (1 / 10)] playerMoving (1, 0) rfl (by norm_num [playerMoving])⟩

/-! ### C6: find_open_tile terminates -/

/-- Specification of the inner scan of `find_open_tile` when it does not find
an open tile: the queue is extended by a duplicate-free list of fresh,
in-bounds cells which are exactly the cells newly marked visited. -/
theorem openStep_inr (m : Maze) :
    ∀ (ns : List Coord) (visited : Finset Coord) (acc : List Coord)
      (v2 : Finset Coord) (q2 : List Coord),
      openStep m ns visited acc = Sum.inr (v2, q2) →
      ∃ newNs : List Coord,
        q2 = acc ++ newNs ∧
        (∀ c : Coord, c ∈ v2 ↔ c ∈ visited ∨ c ∈ newNs) ∧
        newNs.Nodup ∧
        (∀ n ∈ newNs, n ∈ gridCells m ∧ n ∉ visited) ∧
        v2.card = visited.card + newNs.length := by
  intro ns
  induction ns with
  | nil =>
    intro visited acc v2 q2 h
    simp only [openStep, Sum.inr.injEq, Prod.mk.injEq] at h
    obtain ⟨rfl, rfl⟩ := h
    exact ⟨[], by simp, by simp, by simp, by simp, by simp⟩
  | cons n rest ih =>
    intro visited acc v2 q2 h
    simp only [openStep] at h
    split_ifs at h with h1 h2 h3
    · exact ih visited acc v2 q2 h
    · exact ih visited acc v2 q2 h
    · obtain ⟨newNs, hq, hmem, hnd, hfresh, hcard⟩ :=
        ih (insert n visited) (acc ++ [n]) v2 q2 h
      have hnv : n ∉ visited := h2
      refine ⟨n :: newNs, ?_, ?_, ?_, ?_, ?_⟩
      · rw [hq, List.append_assoc]
        rfl
      · intro c
        rw [hmem c, Finset.mem_insert, List.mem_cons]
        tauto
      · refine List.nodup_cons.mpr ⟨?_, hnd⟩
        intro hn
        exact ((hfresh n hn).2 (Finset.mem_insert_self n visited)).elim
      · intro c hc
        rcases List.mem_cons.mp hc with rfl | hc
        · refine ⟨(mem_gridCells m c).mpr ⟨by omega, by omega, by omega, by omega⟩, hnv⟩
        · obtain ⟨hg, hv⟩ := hfresh c hc
          exact ⟨hg, fun hcv => hv (Finset.mem_insert_of_mem hcv)⟩
      · rw [hcard, Finset.card_insert_of_not_mem hnv, List.length_cons]
        omega

/-- If the inner scan of `find_open_tile` returns a tile, that tile is
walkable. -/
theorem openStep_inl (m : Maze) :
    ∀ (ns : List Coord) (visited : Finset Coord) (acc : List Coord) (r : Coord),
      openStep m ns visited acc = Sum.inl r → m.is_wall r = false := by
  intro ns
  induction ns with
  | nil =>
    intro visited acc r h
    simp [openStep] at h
  | cons n rest ih =>
    intro visited acc r h
    simp only [openStep] at h
    split_ifs at h with h1 h2 h3
    · exact ih visited acc r h
    · exact ih visited acc r h
    · exact ih (insert n visited) (acc ++ [n]) r h
    · simp only [Sum.inl.injEq] at h
      subst h
      exact Bool.not_eq_true _ ▸ Bool.of_not_eq_true h3

/-- With fuel at least the standard measure, the `find_open_tile` loop always
delivers a verdict (it cannot run out of fuel): termination. -/
theorem findOpenAux_isSome (m : Maze) :
    ∀ (fuel : ℕ) (visited : Finset Coord) (queue : List Coord),
      (gridCells m \ visited).card + queue.length ≤ fuel →
      (findOpenAux m fuel visited queue).isSome = true := by
  intro fuel
  induction fuel with
  | zero =>
    intro visited queue hM
    match queue with
    | [] => rfl
    | c :: rest => simp at hM
  | succ fuel ih =>
    intro visited queue hM
    match queue with
    | [] => rfl
    | c :: rest =>
      simp only [findOpenAux]
      match hstep : openStep m (openNeighbors c) visited rest with
      | Sum.inl found => rfl
      | Sum.inr (v2, q2) =>
        obtain ⟨newNs, hq, hmem, hnd, hfresh, hcard⟩ :=
          openStep_inr m (openNeighbors c) visited rest v2 q2 hstep
        have hv2 : v2 = visited ∪ newNs.toFinset := by
          apply Finset.ext
          intro a
          rw [hmem a, Finset.mem_union, List.mem_toFinset]
        have hsub : newNs.toFinset ⊆ gridCells m \ visited := by
          intro a ha
          rw [List.mem_toFinset] at ha
          exact Finset.mem_sdiff.mpr ⟨(hfresh a ha).1, (hfresh a ha).2⟩
        have hsd : gridCells m \ v2 = (gridCells m \ visited) \ newNs.toFinset := by
          rw [hv2]
          apply Finset.ext
          intro a
          simp only [Finset.mem_sdiff, Finset.mem_union]
          tauto
        have hcard2 : (gridCells m \ v2).card =
            (gridCells m \ visited).card - newNs.length := by
          rw [hsd, Finset.card_sdiff hsub, List.toFinset_card_of_nodup hnd]
        have hle : newNs.length ≤ (gridCells m \ visited).card := by
          have := Finset.card_le_card hsub
          rwa [List.toFinset_card_of_nodup hnd] at this
        apply ih
        rw [hcard2, hq, List.length_append]
        simp only [List.length_cons] at hM
        omega

/-- On an all-wall maze the loop can never return a found tile. -/
theorem findOpenAux_allwall (m : Maze) (hall : ∀ c : Coord, m.is_wall c = true) :
    ∀ (fuel : ℕ) (visited : Finset Coord) (queue : List Coord) (r : Coord),
      findOpenAux m fuel visited queue ≠ some (some r) := by
  intro fuel
  induction fuel with
  | zero =>
    intro visited queue r
    match queue with
    | [] => simp [findOpenAux]
    | c :: rest => simp [findOpenAux]
  | succ fuel ih =>
    intro visited queue r
    match queue with
    | [] => simp [findOpenAux]
    | c :: rest =>
      simp only [findOpenAux]
      match hstep : openStep m (openNeighbors c) visited rest with
      | Sum.inl found =>
        have := openStep_inl m (openNeighbors c) visited rest found hstep
        rw [hall found] at this
        exact absurd this (by simp)
      | Sum.inr (v2, q2) => exact ih v2 q2 r

/-- C6: `find_open_tile` terminates on every input.  If the preferred tile is
walkable it is returned; the fueled loop (which scans the raw, unwrapped,
bounds-clamped 4-neighborhood breadth-first) always delivers a verdict with
the fuel `find_open_tile` uses; and on a maze whose every coordinate is a wall
it reports the explicit no-open-tiles error (`none`) rather than hanging. -/
theorem find_open_tile_spec (m : Maze) (preferred : Coord) :
    (m.is_wall preferred = false → m.find_open_tile preferred = some preferred) ∧
    (findOpenAux m (gridFuel m) {preferred} [preferred]).isSome = true ∧
    ((∀ c : Coord, m.is_wall c = true) → m.find_open_tile preferred = none) := by
  have hfuel : (gridCells m \ {preferred}).card + [preferred].length ≤ gridFuel m := by
    have h1 : (gridCells m \ {preferred}).card ≤ (gridCells m).card :=
      Finset.card_le_card (Finset.sdiff_subset)
    have h2 : (gridCells m).card ≤ m.width.toNat * m.height.toNat := by
      calc (gridCells m).card
          ≤ (Finset.range m.width.toNat ×ˢ Finset.range m.height.toNat).card :=
            Finset.card_image_le
        _ = m.width.toNat * m.height.toNat := by
            rw [Finset.card_product, Finset.card_range, Finset.card_range]
    simp only [List.length_singleton, gridFuel]
    omega
  have hsome := findOpenAux_isSome m (gridFuel m) {preferred} [preferred] hfuel
  refine ⟨?_, hsome, ?_⟩
  · intro h
    simp only [Maze.find_open_tile, h, if_true]
  · intro hall
    simp only [Maze.find_open_tile]
    rw [if_neg (by simp [hall preferred])]
    obtain ⟨r, hr⟩ := Option.isSome_iff_exists.mp hsome
    rw [hr]
    match r with
    | none => rfl
    | some c => exact absurd hr (findOpenAux_allwall m hall (gridFuel m) {preferred} [preferred] c)

/-- Witness for C6: walkable preferred tile returned; all-wall maze errors. -/
theorem find_open_tile_spec_w :
    mzNoWalls.find_open_tile (0, 0) = some (0, 0) ∧
    mzAllWalls.find_open_tile (0, 0) = none := by
  constructor
  · exact (find_open_tile_spec mzNoWalls (0, 0)).1 (by decide)
  · apply (find_open_tile_spec mzAllWalls (0, 0)).2.2
    intro c
    simp only [Maze.is_wall, mzAllWalls]
    split_ifs with h
    · rfl
    · rcases c with ⟨a, b⟩
      simp only [not_or, not_lt, not_le] at h
      have ha : a = 0 := by omega
      have hb : b = 0 := by omega
      subst ha
      subst hb
      decide

/-! ### C1: find_shortest_path correctness -/

/-- Every valid path is nonempty. -/
theorem validPath_length_pos {m : Maze} {s v : Coord} {p : List Coord}
    (h : ValidPath m s v p) : 1 ≤ p.length := by
  cases h with
  | single => simp
  | extend c n q hq hn => simp

/-- A valid path of length one starts where it ends: at `s`. -/
theorem validPath_length_one {m : Maze} {s v : Coord} {p : List Coord}
    (h : ValidPath m s v p) (hl : p.length = 1) : v = s := by
  cases h with
  | single => rfl
  | extend c n q hq hn =>
    exfalso
    have := validPath_length_pos hq
    simp only [List.length_append, List.length_singleton] at hl
    omega

/-- A valid path of length at least two decomposes into a valid path to a
predecessor plus one adjacency step. -/
theorem validPath_snoc_inv {m : Maze} {s v : Coord} {p : List Coord}
    (h : ValidPath m s v p) (hl : 2 ≤ p.length) :
    ∃ q u, p = q ++ [v] ∧ ValidPath m s u q ∧ v ∈ m.neighbors u := by
  cases h with
  | single => simp at hl
  | extend c n q hq hn => exact ⟨q, c, rfl, hq, hn⟩

/-- Endpoints of valid paths stay inside any neighbor-closed set containing
`s`. -/
theorem validPath_closure {m : Maze} {s : Coord} {V : Finset Coord}
    (hcl : ∀ u ∈ V, ∀ n ∈ m.neighbors u, n ∈ V) (hs : s ∈ V) :
    ∀ {v : Coord} {p : List Coord}, ValidPath m s v p → v ∈ V := by
  intro v p h
  induction h with
  | single => exact hs
  | extend c n q hq hn ih => exact hcl c ih n hn

/-- Cells yielded by `neighbors` are in bounds and walkable. -/
theorem neighbors_subset_grid (m : Maze) (c : Coord) :
    ∀ n ∈ m.neighbors c, n ∈ gridCells m ∧ m.is_wall n = false := by
  intro n hn
  simp only [Maze.neighbors, List.mem_filterMap] at hn
  obtain ⟨o, _, hsome⟩ := hn
  by_cases hw : m.is_wall ((c.1 + o.1 + m.width) % m.width, c.2 + o.2) = true
  · rw [if_pos hw] at hsome
    exact Option.noConfusion hsome
  · rw [if_neg hw] at hsome
    have hfalse : m.is_wall ((c.1 + o.1 + m.width) % m.width, c.2 + o.2) = false := by
      simpa using hw
    obtain rfl := Option.some.inj hsome
    obtain ⟨h1, h2, h3, h4, _⟩ := (is_wall_false_iff m _).mp hfalse
    exact ⟨(mem_gridCells m _).mpr ⟨h1, h2, h3, h4⟩, hfalse⟩

/-- Specification of the inner scan of `find_shortest_path` when it does not
reach the goal: fresh neighbors are appended to the queue, each carrying its
extended path, and they are exactly the newly visited cells; moreover no
scanned neighbor equals the goal and all end up visited. -/
theorem bfsStep_inr (e : Coord) (path : List Coord) :
    ∀ (ns : List Coord) (visited : Finset Coord) (acc : List (Coord × List Coord))
      (v2 : Finset Coord) (q2 : List (Coord × List Coord)),
      bfsStep e path ns visited acc = Sum.inr (v2, q2) →
      ∃ newNs : List Coord,
        q2 = acc ++ newNs.map (fun n => (n, path ++ [n])) ∧
        (∀ c : Coord, c ∈ v2 ↔ c ∈ visited ∨ c ∈ newNs) ∧
        newNs.Nodup ∧
        (∀ n ∈ newNs, n ∈ ns ∧ n ∉ visited) ∧
        (∀ n ∈ ns, n ≠ e ∧ n ∈ v2) ∧
        v2.card = visited.card + newNs.length := by
  intro ns
  induction ns with
  | nil =>
    intro visited acc v2 q2 h
    simp only [bfsStep, Sum.inr.injEq, Prod.mk.injEq] at h
    obtain ⟨rfl, rfl⟩ := h
    exact ⟨[], by simp, by simp, by simp, by simp, by simp, by simp⟩
  | cons n rest ih =>
    intro visited acc v2 q2 h
    simp only [bfsStep] at h
    by_cases h1 : n = e
    · rw [if_pos h1] at h
      exact Sum.noConfusion h
    · rw [if_neg h1] at h
      by_cases h2 : n ∈ visited
      · rw [if_pos h2] at h
        obtain ⟨newNs, hq, hmem, hnd, hfresh, hns, hcard⟩ := ih visited acc v2 q2 h
        refine ⟨newNs, hq, hmem, hnd, ?_, ?_, hcard⟩
        · intro a ha
          exact ⟨List.mem_cons_of_mem n (hfresh a ha).1, (hfresh a ha).2⟩
        · intro a ha
          rcases List.mem_cons.mp ha with rfl | ha
          · exact ⟨h1, (hmem a).mpr (Or.inl h2)⟩
          · exact hns a ha
      · rw [if_neg h2] at h
        obtain ⟨newNs, hq, hmem, hnd, hfresh, hns, hcard⟩ :=
          ih (insert n visited) (acc ++ [(n, path ++ [n])]) v2 q2 h
        refine ⟨n :: newNs, ?_, ?_, ?_, ?_, ?_, ?_⟩
        · rw [hq, List.map_cons, List.append_assoc]
          rfl
        · intro a
          rw [hmem a, Finset.mem_insert, List.mem_cons]
          tauto
        · refine List.nodup_cons.mpr ⟨?_, hnd⟩
          intro hn
          exact ((hfresh n hn).2 (Finset.mem_insert_self n visited)).elim
        · intro a ha
          rcases List.mem_cons.mp ha with rfl | ha
          · exact ⟨List.mem_cons_self a rest, h2⟩
          · exact ⟨List.mem_cons_of_mem n (hfresh a ha).1,
              fun hv => (hfresh a ha).2 (Finset.mem_insert_of_mem hv)⟩
        · intro a ha
          rcases List.mem_cons.mp ha with rfl | ha
          · exact ⟨h1, (hmem a).mpr (Or.inl (Finset.mem_insert_self a visited))⟩
          · exact hns a ha
        · rw [hcard, Finset.card_insert_of_not_mem h2, List.length_cons]
          omega

/-- If the inner scan of `find_shortest_path` returns, the result is the
carried path extended by the goal, and the goal was among the scanned
neighbors. -/
theorem bfsStep_inl (e : Coord) (path : List Coord) :
    ∀ (ns : List Coord) (visited : Finset Coord) (acc : List (Coord × List Coord))
      (r : List Coord),
      bfsStep e path ns visited acc = Sum.inl r → r = path ++ [e] ∧ e ∈ ns := by
  intro ns
  induction ns with
  | nil =>
    intro visited acc r h
    simp [bfsStep] at h
  | cons n rest ih =>
    intro visited acc r h
    simp only [bfsStep] at h
    by_cases h1 : n = e
    · rw [if_pos h1] at h
      obtain rfl := Sum.inl.inj h
      subst h1
      exact ⟨rfl, List.mem_cons_self n rest⟩
    · rw [if_neg h1] at h
      by_cases h2 : n ∈ visited
      · rw [if_pos h2] at h
        obtain ⟨hr, hm⟩ := ih visited acc r h
        exact ⟨hr, List.mem_cons_of_mem n hm⟩
      · rw [if_neg h2] at h
        obtain ⟨hr, hm⟩ := ih (insert n visited) (acc ++ [(n, path ++ [n])]) r h
        exact ⟨hr, List.mem_cons_of_mem n hm⟩

/-- The head of a sorted list bounds every member. -/
theorem sorted_head_le {l : List ℕ} (h : List.Sorted (· ≤ ·) l) {a : ℕ}
    (ha : l.head? = some a) {b : ℕ} (hb : b ∈ l) : a ≤ b := by
  cases l with
  | nil => simp at ha
  | cons x xs =>
    obtain rfl : x = a := by simpa using ha
    rcases List.mem_cons.mp hb with rfl | hb
    · exact le_refl _
    · exact (List.sorted_cons.mp h).1 b hb

/-- A constant list is sorted. -/
theorem sorted_map_const (l : List Coord) (k : ℕ) (f : Coord → ℕ)
    (hf : ∀ a ∈ l, f a = k) : List.Sorted (· ≤ ·) (l.map f) := by
  induction l with
  | nil => simp
  | cons x xs ih =>
    rw [List.map_cons, List.sorted_cons]
    constructor
    · intro b hb
      rw [hf x (List.mem_cons_self x xs)]
      obtain ⟨a, ha, rfl⟩ := List.mem_map.mp hb
      rw [hf a (List.mem_cons_of_mem x ha)]
    · exact ih fun a ha => hf a (List.mem_cons_of_mem x ha)

/-- The breadth-first-search invariant of `find_shortest_path`'s loop:
the start is visited and the goal is not; queue entries carry valid shortest
paths to visited cells; recorded path lengths are sorted and span at most two
consecutive values; every visited cell is either still queued or fully
expanded (with no neighbor equal to the goal); and every cell admitting a path
shorter than the head entry's is visited and fully expanded. -/
structure BfsInv (m : Maze) (s e : Coord) (V : Finset Coord)
    (Q : List (Coord × List Coord)) : Prop where
  s_mem : s ∈ V
  e_not_mem : e ∉ V
  coords_mem : ∀ cp ∈ Q, cp.1 ∈ V
  paths_valid : ∀ cp ∈ Q, ValidPath m s cp.1 cp.2
  paths_short : ∀ cp ∈ Q, ∀ q, ValidPath m s cp.1 q → cp.2.length ≤ q.length
  lens_sorted : List.Sorted (· ≤ ·) (Q.map fun cp => cp.2.length)
  window : ∀ cp ∈ Q, ∀ cp0, Q.head? = some cp0 → cp.2.length ≤ cp0.2.length + 1
  processed : ∀ u ∈ V, (∃ cp ∈ Q, cp.1 = u) ∨ (∀ n ∈ m.neighbors u, n ≠ e ∧ n ∈ V)
  frontier : ∀ v p cp0, Q.head? = some cp0 → ValidPath m s v p →
    p.length < cp0.2.length → v ∈ V ∧ ∀ cp ∈ Q, cp.1 ≠ v

/-- Any cell not yet visited when the head entry is dequeued admits no path
shorter than one step beyond the head's path: BFS discovers cells in distance
order. -/
theorem bfs_fresh_min {m : Maze} {s e : Coord} {V : Finset Coord} {c : Coord}
    {pc : List Coord} {rest : List (Coord × List Coord)}
    (inv : BfsInv m s e V ((c, pc) :: rest))
    {n : Coord} (hfresh : n ∉ V) :
    ∀ q, ValidPath m s n q → pc.length + 1 ≤ q.length := by
  intro q hq
  by_contra hlt
  push_neg at hlt
  have hhead : ((c, pc) :: rest).head? = some (c, pc) := rfl
  rcases Nat.lt_or_ge q.length pc.length with hc | hc
  · exact hfresh (inv.frontier n q (c, pc) hhead hq hc).1
  · have heq : q.length = pc.length := by omega
    by_cases h1 : q.length = 1
    · have hns : n = s := validPath_length_one hq h1
      rw [hns] at hfresh
      exact hfresh inv.s_mem
    · have h2 : 2 ≤ q.length := by
        have := validPath_length_pos hq
        omega
      obtain ⟨q', u, rfl, hq', hadj⟩ := validPath_snoc_inv hq h2
      have hlen' : q'.length < pc.length := by
        simp only [List.length_append, List.length_singleton] at heq
        omega
      obtain ⟨huV, hunotin⟩ := inv.frontier u q' (c, pc) hhead hq' hlen'
      rcases inv.processed u huV with ⟨cp, hcp, hcpu⟩ | hclosure
      · exact (hunotin cp hcp hcpu).elim
      · exact hfresh (hclosure n hadj).2

/-- One loop iteration of `find_shortest_path` that does not reach the goal
preserves the BFS invariant. -/
theorem bfsInv_step {m : Maze} {s e : Coord} {V : Finset Coord} {c : Coord}
    {pc : List Coord} {rest : List (Coord × List Coord)}
    {v2 : Finset Coord} {q2 : List (Coord × List Coord)}
    (inv : BfsInv m s e V ((c, pc) :: rest))
    (hstep : bfsStep e pc (m.neighbors c) V rest = Sum.inr (v2, q2)) :
    BfsInv m s e v2 q2 := by
  obtain ⟨newNs, hq, hmem, hnd, hfresh, hns, hcard⟩ :=
    bfsStep_inr e pc (m.neighbors c) V rest v2 q2 hstep
  have hhead : ((c, pc) :: rest).head? = some (c, pc) := rfl
  have hcmem : (c, pc) ∈ (c, pc) :: rest := List.mem_cons_self _ _
  have hpcvalid : ValidPath m s c pc := inv.paths_valid (c, pc) hcmem
  have hnewlen : ∀ cp ∈ newNs.map (fun n => (n, pc ++ [n])),
      cp.2.length = pc.length + 1 := by
    intro cp hcp
    obtain ⟨a, _, rfl⟩ := List.mem_map.mp hcp
    simp
  have hnewvalid : ∀ a ∈ newNs, ValidPath m s a (pc ++ [a]) :=
    fun a ha => ValidPath.extend c a pc hpcvalid (hfresh a ha).1
  have hnewmin : ∀ a ∈ newNs, ∀ q, ValidPath m s a q → pc.length + 1 ≤ q.length :=
    fun a ha => bfs_fresh_min inv (hfresh a ha).2
  have hrest_w : ∀ cp ∈ rest, cp.2.length ≤ pc.length + 1 :=
    fun cp hcp => inv.window cp (List.mem_cons_of_mem _ hcp) (c, pc) hhead
  have hrest_sorted : List.Sorted (· ≤ ·) (rest.map fun cp => cp.2.length) := by
    have h := inv.lens_sorted
    rw [List.map_cons] at h
    exact (List.sorted_cons.mp h).2
  have hrest_lo : ∀ cp ∈ rest, pc.length ≤ cp.2.length := by
    intro cp hcp
    have h := inv.lens_sorted
    rw [List.map_cons] at h
    exact (List.sorted_cons.mp h).1 cp.2.length (List.mem_map.mpr ⟨cp, hcp, rfl⟩)
  have hq2mem : ∀ cp ∈ q2, cp ∈ rest ∨ cp ∈ newNs.map (fun n => (n, pc ++ [n])) := by
    intro cp hcp
    rw [hq] at hcp
    exact List.mem_append.mp hcp
  have hq2_w : ∀ cp ∈ q2, cp.2.length ≤ pc.length + 1 := by
    intro cp hcp
    rcases hq2mem cp hcp with h | h
    · exact hrest_w cp h
    · rw [hnewlen cp h]
  have hq2head_lo : ∀ cp0, q2.head? = some cp0 → pc.length ≤ cp0.2.length := by
    intro cp0 hcp0
    have hm0 : cp0 ∈ q2 := List.mem_of_mem_head? hcp0
    rcases hq2mem cp0 hm0 with h | h
    · exact hrest_lo cp0 h
    · rw [hnewlen cp0 h]
      omega
  refine ⟨?_, ?_, ?_, ?_, ?_, ?_, ?_, ?_, ?_⟩
  · exact (hmem s).mpr (Or.inl inv.s_mem)
  · intro he
    rcases (hmem e).mp he with h | h
    · exact inv.e_not_mem h
    · exact (hns e (hfresh e h).1).1 rfl
  · intro cp hcp
    rcases hq2mem cp hcp with h | h
    · exact (hmem cp.1).mpr (Or.inl (inv.coords_mem cp (List.mem_cons_of_mem _ h)))
    · obtain ⟨a, ha, rfl⟩ := List.mem_map.mp h
      exact (hmem a).mpr (Or.inr ha)
  · intro cp hcp
    rcases hq2mem cp hcp with h | h
    · exact inv.paths_valid cp (List.mem_cons_of_mem _ h)
    · obtain ⟨a, ha, rfl⟩ := List.mem_map.mp h
      exact hnewvalid a ha
  · intro cp hcp q hqv
    rcases hq2mem cp hcp with h | h
    · exact inv.paths_short cp (List.mem_cons_of_mem _ h) q hqv
    · obtain ⟨a, ha, rfl⟩ := List.mem_map.mp h
      have := hnewmin a ha q hqv
      simp only [List.length_append, List.length_singleton]
      omega
  · rw [hq, List.map_append]
    refine List.pairwise_append.mpr ⟨hrest_sorted, ?_, ?_⟩
    · rw [List.map_map]
      exact sorted_map_const newNs (pc.length + 1) _ (fun a ha => by simp [Function.comp])
    · intro x hx y hy
      obtain ⟨cp, hcp, rfl⟩ := List.mem_map.mp hx
      rw [List.map_map] at hy
      obtain ⟨a, ha, rfl⟩ := List.mem_map.mp hy
      have h1 := hrest_w cp hcp
      simp only [Function.comp_apply, List.length_append, List.length_singleton]
      omega
  · intro cp hcp cp0 hcp0
    have h1 := hq2_w cp hcp
    have h2 := hq2head_lo cp0 hcp0
    omega
  · intro u hu
    rcases (hmem u).mp hu with huV | hunew
    · rcases inv.processed u huV with ⟨cp, hcp, hcpu⟩ | hcl
      · rcases List.mem_cons.mp hcp with heq | hcp2
        · right
          rw [heq] at hcpu
          have hcu : c = u := hcpu
          subst hcu
          intro n hn
          exact ⟨(hns n hn).1, (hns n hn).2⟩
        · left
          exact ⟨cp, by rw [hq]; exact List.mem_append_left _ hcp2, hcpu⟩
      · right
        intro n hn
        exact ⟨(hcl n hn).1, (hmem n).mpr (Or.inl (hcl n hn).2)⟩
    · left
      refine ⟨(u, pc ++ [u]), ?_, rfl⟩
      rw [hq]
      exact List.mem_append_right _ (List.mem_map.mpr ⟨u, hunew, rfl⟩)
  · intro v p cp0 hcp0 hvp hlen
    have hcp0le : cp0.2.length ≤ pc.length + 1 := hq2_w cp0 (List.mem_of_mem_head? hcp0)
    rcases Nat.lt_or_ge p.length pc.length with hplt | hpge
    · obtain ⟨hvV, hvnotin⟩ := inv.frontier v p (c, pc) hhead hvp hplt
      refine ⟨(hmem v).mpr (Or.inl hvV), ?_⟩
      intro cp hcp
      rcases hq2mem cp hcp with h | h
      · exact hvnotin cp (List.mem_cons_of_mem _ h)
      · obtain ⟨a, ha, rfl⟩ := List.mem_map.mp h
        intro heq
        exact (hfresh a ha).2 ((show a = v from heq) ▸ hvV)
    · have hpeq : p.length = pc.length := by omega
      have hcp0gt : pc.length < cp0.2.length := by omega
      have hvV : v ∈ V := by
        by_cases h1 : p.length = 1
        · have hv : v = s := validPath_length_one hvp h1
          rw [hv]
          exact inv.s_mem
        · have h2 : 2 ≤ p.length := by
            have := validPath_length_pos hvp
            omega
          obtain ⟨q', u, rfl, hq', hadj⟩ := validPath_snoc_inv hvp h2
          have hlen' : q'.length < pc.length := by
            simp only [List.length_append, List.length_singleton] at hpeq
            omega
          obtain ⟨huV, hunotin⟩ := inv.frontier u q' (c, pc) hhead hq' hlen'
          rcases inv.processed u huV with ⟨cp, hcp, hcpu⟩ | hcl
          · exact (hunotin cp hcp hcpu).elim
          · exact (hcl v hadj).2
      refine ⟨(hmem v).mpr (Or.inl hvV), ?_⟩
      intro cp hcp
      rcases hq2mem cp hcp with h | h
      · intro heq
        have hrestne : rest ≠ [] := by
          intro hr
          rw [hr] at h
          exact (List.not_mem_nil cp) h
        have hcp0rest : rest.head? = some cp0 := by
          rw [hq] at hcp0
          cases rest with
          | nil => exact (hrestne rfl).elim
          | cons r rs => simpa using hcp0
        have hge : cp0.2.length ≤ cp.2.length := by
          apply sorted_head_le hrest_sorted ?_ (List.mem_map.mpr ⟨cp, h, rfl⟩)
          rw [List.head?_map, hcp0rest]
          rfl
        have hshort := inv.paths_short cp (List.mem_cons_of_mem _ h) p
          (by rw [heq]; exact hvp)
        omega
      · obtain ⟨a, ha, rfl⟩ := List.mem_map.mp h
        intro heq
        exact (hfresh a ha).2 ((show a = v from heq) ▸ hvV)

/-- When the queue empties without reaching the goal, the goal is unreachable:
every visited cell is fully expanded, so the visited set is closed under
`neighbors` and contains `s` but not `e`. -/
theorem bfs_empty_unreachable {m : Maze} {s e : Coord} {V : Finset Coord}
    (inv : BfsInv m s e V []) : ¬ Reachable m s e := by
  rintro ⟨p, hp⟩
  have hcl : ∀ u ∈ V, ∀ n ∈ m.neighbors u, n ∈ V := by
    intro u hu n hn
    rcases inv.processed u hu with ⟨cp, hcp, _⟩ | h
    · exact absurd hcp (List.not_mem_nil cp)
    · exact (h n hn).2
  exact inv.e_not_mem (validPath_closure hcl inv.s_mem hp)

/-- Soundness of the `find_shortest_path` loop: from any state satisfying the
invariant, with fuel at least the standard measure, the loop delivers a
verdict; `none` only when the goal is unreachable, and any returned path is a
valid path from `s` to `e` of minimum length. -/
theorem bfsAux_sound (m : Maze) (s e : Coord) :
    ∀ (fuel : ℕ) (V : Finset Coord) (Q : List (Coord × List Coord)),
      BfsInv m s e V Q →
      (gridCells m \ V).card + Q.length ≤ fuel →
      ∃ r, bfsAux m e fuel V Q = some r ∧
        (r = none → ¬ Reachable m s e) ∧
        (∀ p, r = some p → ValidPath m s e p ∧
          ∀ q, ValidPath m s e q → p.length ≤ q.length) := by
  intro fuel
  induction fuel with
  | zero =>
    intro V Q inv hM
    match Q with
    | [] =>
      exact ⟨none, rfl, fun _ => bfs_empty_unreachable inv,
        fun p hp => Option.noConfusion hp⟩
    | cp :: rest => simp at hM
  | succ fuel ih =>
    intro V Q inv hM
    match Q with
    | [] =>
      exact ⟨none, rfl, fun _ => bfs_empty_unreachable inv,
        fun p hp => Option.noConfusion hp⟩
    | (c, pc) :: rest =>
      match hstep : bfsStep e pc (m.neighbors c) V rest with
      | Sum.inl found =>
        refine ⟨some found, by simp only [bfsAux, hstep], ?_, ?_⟩
        · intro h
          exact Option.noConfusion h
        · intro p hp
          obtain rfl : found = p := Option.some.inj hp
          obtain ⟨hres, hens⟩ := bfsStep_inl e pc (m.neighbors c) V rest found hstep
          subst hres
          constructor
          · exact ValidPath.extend c e pc
              (inv.paths_valid (c, pc) (List.mem_cons_self _ _)) hens
          · intro q hq
            have := bfs_fresh_min inv inv.e_not_mem q hq
            simp only [List.length_append, List.length_singleton]
            omega
      | Sum.inr (v2, q2) =>
        obtain ⟨newNs, hq, hmem, hnd, hfresh, hns, hcard⟩ :=
          bfsStep_inr e pc (m.neighbors c) V rest v2 q2 hstep
        have hv2 : v2 = V ∪ newNs.toFinset := by
          apply Finset.ext
          intro a
          rw [hmem a, Finset.mem_union, List.mem_toFinset]
        have hsub : newNs.toFinset ⊆ gridCells m \ V := by
          intro a ha
          rw [List.mem_toFinset] at ha
          exact Finset.mem_sdiff.mpr
            ⟨(neighbors_subset_grid m c a (hfresh a ha).1).1, (hfresh a ha).2⟩
        have hsd : gridCells m \ v2 = (gridCells m \ V) \ newNs.toFinset := by
          rw [hv2]
          apply Finset.ext
          intro a
          simp only [Finset.mem_sdiff, Finset.mem_union]
          tauto
        have hcard2 : (gridCells m \ v2).card =
            (gridCells m \ V).card - newNs.length := by
          rw [hsd, Finset.card_sdiff hsub, List.toFinset_card_of_nodup hnd]
        have hle : newNs.length ≤ (gridCells m \ V).card := by
          have h := Finset.card_le_card hsub
          rwa [List.toFinset_card_of_nodup hnd] at h
        have hM2 : (gridCells m \ v2).card + q2.length ≤ fuel := by
          rw [hcard2, hq, List.length_append, List.length_map]
          simp only [List.length_cons] at hM
          omega
        obtain ⟨r, hr, h1, h2⟩ := ih v2 q2 (bfsInv_step inv hstep) hM2
        exact ⟨r, by simp only [bfsAux, hstep]; exact hr, h1, h2⟩

/-- The invariant holds at the initial state of the search. -/
theorem bfsInv_init (m : Maze) (s e : Coord) (hne : s ≠ e) :
    BfsInv m s e {s} [(s, [s])] := by
  refine ⟨?_, ?_, ?_, ?_, ?_, ?_, ?_, ?_, ?_⟩
  · exact Finset.mem_singleton_self s
  · intro h
    exact hne (Finset.mem_singleton.mp h).symm
  · intro cp hcp
    rcases List.mem_cons.mp hcp with rfl | h
    · exact Finset.mem_singleton_self s
    · exact absurd h (List.not_mem_nil cp)
  · intro cp hcp
    rcases List.mem_cons.mp hcp with rfl | h
    · exact ValidPath.single
    · exact absurd h (List.not_mem_nil cp)
  · intro cp hcp q hq
    rcases List.mem_cons.mp hcp with rfl | h
    · exact validPath_length_pos hq
    · exact absurd h (List.not_mem_nil cp)
  · simp
  · intro cp hcp cp0 hcp0
    have hcp0e : cp0 = (s, [s]) := by simpa using hcp0.symm
    rcases List.mem_cons.mp hcp with rfl | h
    · rw [hcp0e]
      simp
    · exact absurd h (List.not_mem_nil cp)
  · intro u hu
    left
    exact ⟨(s, [s]), List.mem_cons_self _ _, (Finset.mem_singleton.mp hu).symm⟩
  · intro v p cp0 hcp0 hvp hlen
    exfalso
    have hcp0e : cp0 = (s, [s]) := by simpa using hcp0.symm
    rw [hcp0e] at hlen
    have := validPath_length_pos hvp
    simp only [List.length_singleton] at hlen
    omega

/-- The grid has at most `width * height` cells. -/
theorem gridCells_card_le (m : Maze) :
    (gridCells m).card ≤ m.width.toNat * m.height.toNat := by
  calc (gridCells m).card
      ≤ (Finset.range m.width.toNat ×ˢ Finset.range m.height.toNat).card :=
        Finset.card_image_le
    _ = m.width.toNat * m.height.toNat := by
        rw [Finset.card_product, Finset.card_range, Finset.card_range]

/-- C1: functional correctness of `find_shortest_path`.  It returns `none`
whenever an endpoint is a wall; `[s]` for `s = s` on a non-wall tile; and
otherwise — both endpoints walkable — it returns `none` exactly when `e` is
unreachable from `s` in the `neighbors()` graph, and any returned path is a
valid `neighbors()`-path from `s` to `e` (consecutive elements are
wraparound-aware walkable neighbors) of minimum length among all such paths,
i.e. its length is the BFS distance plus one. -/
theorem find_shortest_path_spec (m : Maze) (s e : Coord) :
    ((m.is_wall s = true ∨ m.is_wall e = true) → m.find_shortest_path s e = none) ∧
    (m.is_wall s = false → m.find_shortest_path s s = some [s]) ∧
    (m.is_wall s = false → m.is_wall e = false →
      (m.find_shortest_path s e = none → ¬ Reachable m s e) ∧
      (Reachable m s e → ∃ p, m.find_shortest_path s e = some p) ∧
      (∀ p, m.find_shortest_path s e = some p →
        ValidPath m s e p ∧ ∀ q, ValidPath m s e q → p.length ≤ q.length)) := by
  refine ⟨?_, ?_, ?_⟩
  · intro h
    simp only [Maze.find_shortest_path]
    rw [if_pos h]
  · intro h
    simp only [Maze.find_shortest_path]
    rw [if_neg (by simp [h])]
    simp
  · intro hs he
    by_cases hse : s = e
    · subst hse
      have hval : m.find_shortest_path s s = some [s] := by
        simp only [Maze.find_shortest_path]
        rw [if_neg (by simp [hs])]
        simp
      refine ⟨?_, ?_, ?_⟩
      · intro h
        rw [hval] at h
        exact Option.noConfusion h
      · intro _
        exact ⟨[s], hval⟩
      · intro p hp
        rw [hval] at hp
        obtain rfl : [s] = p := Option.some.inj hp
        exact ⟨ValidPath.single, fun q hq => validPath_length_pos hq⟩
    · have hM : (gridCells m \ {s}).card + [(s, [s])].length ≤ gridFuel m := by
        have h1 : (gridCells m \ {s}).card ≤ (gridCells m).card :=
          Finset.card_le_card Finset.sdiff_subset
        have h2 := gridCells_card_le m
        simp only [List.length_singleton, gridFuel]
        omega
      obtain ⟨r, hr, h1, h2⟩ :=
        bfsAux_sound m s e (gridFuel m) {s} [(s, [s])] (bfsInv_init m s e hse) hM
      have hval : m.find_shortest_path s e = r := by
        simp only [Maze.find_shortest_path]
        rw [if_neg (by simp [hs, he]), if_neg hse, hr]
        rfl
      refine ⟨?_, ?_, ?_⟩
      · intro h
        rw [hval] at h
        exact h1 h
      · intro hreach
        match r, hval with
        | none, hval => exact absurd hreach (h1 rfl)
        | some p, hval => exact ⟨p, hval⟩
      · intro p hp
        rw [hval] at hp
        exact h2 p hp

/-- Witness for C1 on concrete mazes: a wall endpoint gives `none`; the
degenerate query gives `[s]`; and the one-step query in the open 2x1 maze
returns the two-cell path, which is valid and of minimum length. -/
theorem find_shortest_path_spec_w :
    mzOneWall.find_shortest_path (0, 0) (1, 0) = none ∧
    mzNoWalls.find_shortest_path (0, 0) (0, 0) = some [(0, 0)] ∧
    ValidPath mzNoWalls (0, 0) (1, 0) [(0, 0), (1, 0)] ∧
    (∀ q, ValidPath mzNoWalls (0, 0) (1, 0) q → 2 ≤ q.length) ∧
    (∃ p, mzNoWalls.find_shortest_path (0, 0) (1, 0) = some p) := by
  have h3 := (find_shortest_path_spec mzNoWalls (0, 0) (1, 0)).2.2 (by decide) (by decide)
  have hfound := h3.2.2 [(0, 0), (1, 0)] (by decide)
  refine ⟨(find_shortest_path_spec mzOneWall (0, 0) (1, 0)).1 (Or.inl (by decide)),
    (find_shortest_path_spec mzNoWalls (0, 0) (0, 0)).2.1 (by decide),
    hfound.1, ?_, h3.2.1 ⟨[(0, 0), (1, 0)], hfound.1⟩⟩
  intro q hq
  exact hfound.2 q hq
